import Mathlib

/-!
Verification of the `AwsTranslateManager` service (src/service/translationManger.js).

The development shallowly embeds the pure data-transformation core of the
manager: JSON values are an inductive type (numbers restricted to integers,
which covers every value the service manipulates), the S3 bucket is an
association list from keys to stored JSON values (stringify/parse at the
storage boundary are treated as the exact inverse pair they are for values
produced by JSON.stringify), and the AWS Translate endpoint is an oracle
function returning `Except`.  JavaScript truthiness, the `||` chain,
object-spread key semantics and `findIndex`-based update are embedded
explicitly where the source relies on them.
-/

namespace TranslationManager

/-- A custom-dictionary entry, as stored in `_dictionaryEntries`:
an object with `source`, `language` and `translation` string fields. -/
structure Entry where
  source : String
  language : String
  translation : String
deriving Repr, DecidableEq

/-- JSON values (numbers restricted to integers; the service never
manipulates fractional numbers). -/
inductive Json where
  | null : Json
  | bool (b : Bool) : Json
  | num (n : Int) : Json
  | str (s : String) : Json
  | arr (elems : List Json) : Json
  | obj (fields : List (String × Json)) : Json

/-- JavaScript truthiness of a JSON value: `null`, `false`, `0` and the
empty string are falsy, everything else (any array or object) is truthy. -/
def Json.truthy : Json → Bool
  | .null => false
  | .bool b => b
  | .num n => n != 0
  | .str s => s != ""
  | .arr _ => true
  | .obj _ => true

/-- First-match association lookup, the shape of JavaScript property
access over the key lists this model stores. -/
def assocFind {α : Type} (k : String) : List (String × α) → Option α
  | [] => none
  | (k', v) :: rest => if k' = k then some v else assocFind k rest

/-- Field access `value?.k`: `some` the field of an object, `none`
(JavaScript `undefined`) on a missing field or a non-object. -/
def Json.field? : Json → String → Option Json
  | .obj fs, k => assocFind k fs
  | _, _ => none

/-- Whether a JSON value is an array (`Array.isArray`). -/
def Json.isArr : Json → Bool
  | .arr _ => true
  | _ => false

/-- JavaScript `.toLowerCase()` on the ASCII range the service compares
(Lean's own `Char.toLower` is the same ASCII mapping), written by
structural recursion over the character list so concrete instances
evaluate. -/
def jsToLower (s : String) : String :=
  String.mk (s.data.map Char.toLower)

/-- Drop leading whitespace characters. -/
def dropLeadingWs : List Char → List Char
  | [] => []
  | c :: rest => if c.isWhitespace then dropLeadingWs rest else c :: rest

/-- JavaScript `.trim()`: drop whitespace from both ends. -/
def jsTrim (s : String) : String :=
  String.mk (dropLeadingWs (dropLeadingWs s.data.reverse).reverse)

/-! ## Object storage model

The bucket is an association list from keys to the JSON value whose
stringified form is stored.  `put` overwrites any previous value at the
key; `get` is a lookup. -/

abbrev Store := List (String × Json)

/-- `PutObjectCommand`: store a value at a key, overwriting. -/
def Store.put (store : Store) (key : String) (v : Json) : Store :=
  (key, v) :: store.filter (fun p => decide (p.1 ≠ key))

/-- `GetObjectCommand`: fetch the value at a key, if present. -/
def Store.get (store : Store) (key : String) : Option Json :=
  assocFind key store

/-! ## Dictionary persistence (`saveCustomDictionaryJson` / `loadCustomDictionaryJson`) -/

/-- JSON form of one dictionary entry as `JSON.stringify` serializes it
(fields in declaration order). -/
def entryToJson (e : Entry) : Json :=
  .obj [("source", .str e.source), ("language", .str e.language),
        ("translation", .str e.translation)]

/-- JSON form of the whole in-memory entry list, i.e. the body written by
`saveCustomDictionaryJson`. -/
def encodeEntries (l : List Entry) : Json :=
  .arr (l.map entryToJson)

/-- Reading one entry back from its JSON form.  The JavaScript load path
performs no validation; this decoder expresses which JSON objects denote a
value of the typed in-memory state. -/
def jsonToEntry (j : Json) : Option Entry :=
  match j.field? "source", j.field? "language", j.field? "translation" with
  | some (.str s), some (.str l), some (.str t) => some (Entry.mk s l t)
  | _, _, _ => none

/-- Reading each element of a stored JSON array back as an entry. -/
def decodeEntryList : List Json → Option (List Entry)
  | [] => some []
  | j :: rest =>
    match jsonToEntry j, decodeEntryList rest with
    | some e, some es => some (e :: es)
    | _, _ => none

/-- Reading an entry list back from a stored JSON body. -/
def decodeEntries (j : Json) : Option (List Entry) :=
  match j with
  | .arr xs => decodeEntryList xs
  | _ => none

/-- `saveCustomDictionaryJson` (src/service/translationManger.js lines
556-579): serialize `_dictionaryEntries` and upload at the configured JSON
key, overwriting.  The in-memory state is not touched. -/
def saveCustomDictionaryJson (entries : List Entry) (jsonKey : String)
    (store : Store) : Store :=
  store.put jsonKey (encodeEntries entries)

/-- Outcome of the fetch-and-JSON.parse prefix of the load path:
a parsed body, the `NoSuchKey` miss, or any other fetch/parse fault. -/
inductive LoadErr where
  | noSuchKey : LoadErr
  | fault (msg : String) : LoadErr
deriving Repr, DecidableEq

/-- The fetch half of `loadCustomDictionaryJson` against the store model:
a present key yields its parsed body, an absent key is the `NoSuchKey`
error. -/
def fetchDictionary (store : Store) (jsonKey : String) : Except LoadErr Json :=
  match store.get jsonKey with
  | some j => .ok j
  | none => .error .noSuchKey

/-- `loadCustomDictionaryJson` (src/service/translationManger.js lines
313-380), given the outcome of the fetch+parse and the pre-call in-memory
entry list.  A missing key is recovered as the empty dictionary (state set
to `[]`, empty list returned); any other fault is re-thrown and the
in-memory state is left untouched — the assignment to
`_dictionaryEntries` happens only after a successful parse.  A body that
parses but is not an entry array is outside the typed state and surfaces
as a fault here. -/
def loadCustomDictionaryJson (fetched : Except LoadErr Json)
    (entries : List Entry) : Except LoadErr (List Entry) × List Entry :=
  match fetched with
  | .error .noSuchKey => (.ok [], [])
  | .error (.fault m) => (.error (.fault m), entries)
  | .ok j =>
    match decodeEntries j with
    | some es => (.ok es, es)
    | none => (.error (.fault "body is not an entry array"), entries)

/-! ## Dictionary add/update (`addOrUpdateDictionaryEntry`) -/

/-- The identity-key test used by `findIndex` in
`addOrUpdateDictionaryEntry` (lines 405-409): source and language compared
lower-cased. -/
def matchesKey (e : Entry) (source targetLang : String) : Bool :=
  jsToLower e.source == jsToLower source && jsToLower e.language == jsToLower targetLang

/-- Two entries share an identity key. -/
def sameKey (a b : Entry) : Bool :=
  jsToLower a.source == jsToLower b.source && jsToLower a.language == jsToLower b.language

/-- `addOrUpdateDictionaryEntry` (lines 404-440): find the first entry
matching the lower-cased (source, language) key; on a hit overwrite that
entry's `translation` in place, on a miss push a new entry. -/
def addOrUpdateDictionaryEntry : List Entry → String → String → String → List Entry
  | [], source, targetLang, translation => [Entry.mk source targetLang translation]
  | e :: rest, source, targetLang, translation =>
    if matchesKey e source targetLang then
      Entry.mk e.source e.language translation :: rest
    else
      e :: addOrUpdateDictionaryEntry rest source targetLang translation

/-- The uniqueness invariant: no two entries share an identity key. -/
def uniqKeys : List Entry → Bool
  | [] => true
  | e :: rest => !(rest.any (sameKey e)) && uniqKeys rest

/-- Number of entries matching a given identity key. -/
def countKey (l : List Entry) (source targetLang : String) : Nat :=
  (l.filter (fun e => matchesKey e source targetLang)).length

/-! ## CSV export (`convertJsonToAwsCsvAndUpload`) -/

/-- The data rows built by `convertJsonToAwsCsvAndUpload`
(src/service/translationManger.js lines 614-622): the target tag is
lower-cased then trimmed; entries are kept when their lower-cased (not
trimmed) language equals it, and each kept entry becomes the two-column
row (source, translation). -/
def convertJsonToAwsCsvRows (dictionaryEntries : List Entry)
    (targetLang : String) : List (String × String) :=
  let targetLangCode := jsTrim (jsToLower targetLang)
  (dictionaryEntries.filter (fun e => jsToLower e.language == targetLangCode)).map
    (fun e => (e.source, e.translation))

/-- The CSV header fields (line 626): fixed source column "en" and the
normalized target tag. -/
def convertJsonToAwsCsvFields (targetLang : String) : List String :=
  ["en", jsTrim (jsToLower targetLang)]

/-- Modelled from the spec: the row selection as the claim states it —
language compared after trim-and-lowercase normalization on both sides,
and only entries whose source and translation are non-blank after
trimming are kept. -/
def convertCsvRowsClaim (entries : List Entry) (targetLang : String) :
    List (String × String) :=
  (entries.filter (fun e =>
      jsToLower (jsTrim e.language) == jsToLower (jsTrim targetLang)
      && jsTrim e.source != "" && jsTrim e.translation != "")).map
    (fun e => (e.source, e.translation))

/-! ## Single-text translation request (`translateText`) and the bulk
per-item request -/

/-- The request sent to the translate endpoint. `TerminologyNames` is the
possibly-empty list of terminology names attached to the request (empty
when the field is absent). -/
structure TranslateRequest where
  reqText : Json
  sourceLanguageCode : String
  targetLanguageCode : String
  terminologyNames : List String

/-- The request built by `translateText` (src/service/translationManger.js
lines 85-92): source language fixed at "en", and — since
`this.customDictionaryName &&` gates the field — terminology names
attached exactly when the configured name is a non-empty string. -/
def translateTextRequest (customDictionaryName : String) (text : String)
    (targetLang : String) : TranslateRequest :=
  TranslateRequest.mk (.str text) "en" targetLang
    (if customDictionaryName != "" then [customDictionaryName] else [])

/-- The per-item request built inside the bulk manual loop (lines 218-222):
source language fixed at "en" and no terminology field at all. -/
def bulkTranslateRequest (text : Json) (lang : String) : TranslateRequest :=
  TranslateRequest.mk text "en" lang []

/-- The constructor's
`customDictionaryName = config.customDictionaryName || "my-translate-overrides"`
(line 38): any falsy configured value (absent or the empty string) falls
back to the default name. -/
def mkCustomDictionaryName (cfg : Option String) : String :=
  match cfg with
  | some s => if s != "" then s else "my-translate-overrides"
  | none => "my-translate-overrides"

/-! ## Bulk manual fallback: input parsing (lines 180-199) -/

/-- `rawText.split(/\r?\n/)`: split at each newline, an immediately
preceding carriage return being consumed with it. -/
def splitLinesAux : List Char → List Char → List String
  | [], cur => [String.mk cur.reverse]
  | '\r' :: '\n' :: rest, cur => String.mk cur.reverse :: splitLinesAux rest []
  | '\n' :: rest, cur => String.mk cur.reverse :: splitLinesAux rest []
  | c :: rest, cur => splitLinesAux rest (c :: cur)

def splitLines (s : String) : List String :=
  splitLinesAux s.data []

/-- The line-by-line fallback (line 198): split the raw text at newlines
and keep the lines that are non-blank after trimming, as string units. -/
def lineItems (rawText : String) : List Json :=
  ((splitLines rawText).filter (fun line => jsTrim line != "")).map Json.str

/-- The unit-list construction (lines 180-199). `parsed?` is the outcome
of `JSON.parse rawText` (`none` when the text is not valid JSON).  A
parsed array supplies its elements; otherwise an array-valued
`translations` field supplies its elements; any other shape yields the
empty candidate list.  An empty candidate list trips the explicit throw
inside the `try`, so it and a parse failure both fall back to
line-by-line units. -/
def parseItems (rawText : String) (parsed? : Option Json) : List Json :=
  match parsed? with
  | none => lineItems rawText
  | some parsed =>
    let items : List Json :=
      match parsed with
      | .arr xs => xs
      | _ =>
        match parsed.field? "translations" with
        | some (.arr xs) => xs
        | _ => []
    if items.isEmpty then lineItems rawText else items

/-! ## Bulk manual fallback: text extraction (lines 203-211) -/

/-- JavaScript `a || b` over possibly-undefined values: keep `a` when
truthy, else take `b`. -/
def jsOr (a b : Option Json) : Option Json :=
  match a with
  | some v => if v.truthy then some v else b
  | none => b

/-- The `text` binding of the loop body (lines 204-207): a string unit is
taken as is; otherwise the truthiness-driven chain
`entry?.Text || entry?.text || entry?.source`. -/
def extractText (entry : Json) : Option Json :=
  match entry with
  | .str s => some (.str s)
  | _ => jsOr (jsOr (entry.field? "Text") (entry.field? "text"))
          (entry.field? "source")

/-- Modelled from the spec: extraction as the claim words it — the first
present (not necessarily truthy) of the `Text`, `text`, `source` fields. -/
def extractTextClaim (entry : Json) : Option Json :=
  match entry with
  | .str s => some (.str s)
  | _ =>
    match entry.field? "Text" with
    | some v => some v
    | none =>
      match entry.field? "text" with
      | some v => some v
      | none => entry.field? "source"

/-- The retained text of a unit: the extracted value when it passes the
`if (!text) continue` truthiness guard (lines 209-212), `none` when the
unit is skipped. -/
def retainedText (entry : Json) : Option Json :=
  match extractText entry with
  | some v => if v.truthy then some v else none
  | none => none

/-! ## Bulk manual fallback: translation loop (lines 213-239) -/

/-- The translate endpoint as an oracle: text and target language to
either a translated string or a thrown error message. -/
abbrev Translator := Json → String → Except String String

/-- JavaScript object-key assignment `m[k] = v`: overwrite in place when
the key exists, append otherwise. -/
def jsObjSet {α : Type} (m : List (String × α)) (k : String) (v : α) :
    List (String × α) :=
  if m.any (fun p => decide (p.1 = k)) then
    m.map (fun p => if p.1 = k then (k, v) else p)
  else
    m ++ [(k, v)]

/-- The inner per-language loop (lines 214-236): build `resultsPerLang` by
assigning, for each requested language in order, the translated text on
success and `null` (here `none`) on a caught failure. -/
def resultsPerLang (tr : Translator) (text : Json) (langs : List String) :
    List (String × Option String) :=
  langs.foldl (fun m lang => jsObjSet m lang (tr text lang).toOption) []

/-- A per-language result as it lands in the output record: the
translated string, or JSON `null` for a recorded failure. -/
def langResultToJson : Option String → Json
  | some s => .str s
  | none => .null

/-- The output record `(original: text, ...resultsPerLang)` (line 238):
an object starting from the `original` field with the per-language
results spread over it in order. -/
def mkRecord (text : Json) (results : List (String × Option String)) : Json :=
  .obj (results.foldl (fun m kv => jsObjSet m kv.1 (langResultToJson kv.2))
    [("original", text)])

/-- One round of the outer per-unit loop: a unit yielding no truthy text
is skipped, otherwise its record is pushed onto the accumulated output. -/
def manualStep (tr : Translator) (langs : List String) (acc : List Json)
    (entry : Json) : List Json :=
  match retainedText entry with
  | none => acc
  | some text => acc ++ [mkRecord text (resultsPerLang tr text langs)]

/-- The outer per-unit loop (lines 201-239): walk the units in order,
skip those yielding no truthy text, and push one record per retained
unit. -/
def manualLoop (tr : Translator) (langs : List String) (items : List Json) :
    List Json :=
  items.foldl (manualStep tr langs) []

/-- The whole manual fallback body between download and upload: parse the
raw input into units, then run the translation loop. -/
def startBulkTranslationManual (tr : Translator) (langs : List String)
    (rawText : String) (parsed? : Option Json) : List Json :=
  manualLoop tr langs (parseItems rawText parsed?)

/-- The spec's concrete bulk test translator: succeeds with "bonjour"
for target language "fr" and throws for any other language. -/
def trGoodMorning : Translator :=
  fun _ lang => if lang == "fr" then Except.ok "bonjour"
    else Except.error "Translation failed"

/-! ## Helper lemmas: structure of the bulk loop -/

lemma manualStep_append (tr : Translator) (langs : List String)
    (acc : List Json) (entry : Json) :
    manualStep tr langs acc entry = acc ++ manualStep tr langs [] entry := by
  unfold manualStep
  cases retainedText entry <;> simp

lemma foldl_manualStep_acc (tr : Translator) (langs : List String) :
    ∀ (items : List Json) (acc : List Json),
      items.foldl (manualStep tr langs) acc
        = acc ++ items.foldl (manualStep tr langs) [] := by
  intro items
  induction items with
  | nil => intro acc; simp
  | cons e items ih =>
    intro acc
    simp only [List.foldl_cons]
    rw [ih (manualStep tr langs acc e), ih (manualStep tr langs [] e)]
    rw [manualStep_append tr langs acc e]
    try rw [List.append_assoc]

lemma manualLoop_cons (tr : Translator) (langs : List String) (entry : Json)
    (items : List Json) :
    manualLoop tr langs (entry :: items)
      = manualStep tr langs [] entry ++ manualLoop tr langs items := by
  unfold manualLoop
  simp only [List.foldl_cons]
  rw [foldl_manualStep_acc]

/-- The output of the manual loop is the in-order image of the retained
units, each record built from its own retained text. -/
lemma manualLoop_eq_map_filterMap (tr : Translator) (langs : List String)
    (items : List Json) :
    manualLoop tr langs items
      = (items.filterMap retainedText).map
          (fun text => mkRecord text (resultsPerLang tr text langs)) := by
  induction items with
  | nil => rfl
  | cons e items ih =>
    rw [manualLoop_cons, List.filterMap_cons]
    cases h : retainedText e with
    | none => simpa [manualStep, h] using ih
    | some text => simp [manualStep, h, ih]

/-! ## Helper lemmas: JavaScript object assignment and key lookup -/

lemma assocFind_append_right {α : Type} (k : String) (v : α) :
    ∀ (m : List (String × α)), (∀ p ∈ m, p.1 ≠ k) →
      assocFind k (m ++ [(k, v)]) = some v := by
  intro m
  induction m with
  | nil => simp [assocFind]
  | cons p m ih =>
    intro h
    have hp : p.1 ≠ k := h p (by simp)
    simp only [List.cons_append, assocFind, if_neg hp]
    exact ih (fun q hq => h q (by simp [hq]))

lemma assocFind_map_replace {α : Type} (k : String) (v : α) :
    ∀ (m : List (String × α)), (m.any (fun p => decide (p.1 = k))) = true →
      assocFind k (m.map (fun p => if p.1 = k then (k, v) else p)) = some v := by
  intro m
  induction m with
  | nil => simp
  | cons p m ih =>
    obtain ⟨pk, pv⟩ := p
    intro hany
    by_cases hp : pk = k
    · simp only [List.map_cons]
      rw [if_pos hp]
      simp [assocFind]
    · simp only [List.map_cons]
      rw [if_neg hp]
      simp only [assocFind, if_neg hp]
      apply ih
      simpa [hp] using hany

lemma assocFind_jsObjSet_self {α : Type} (m : List (String × α)) (k : String)
    (v : α) : assocFind k (jsObjSet m k v) = some v := by
  unfold jsObjSet
  by_cases hany : (m.any (fun p => decide (p.1 = k))) = true
  · simp only [hany, if_true]
    exact assocFind_map_replace k v m hany
  · simp only [hany, if_false]
    apply assocFind_append_right
    intro p hp hc
    exact hany (by simp only [List.any_eq_true]; exact ⟨p, hp, by simp [hc]⟩)

lemma assocFind_jsObjSet_ne {α : Type} (k k' : String) (v : α)
    (h : k' ≠ k) : ∀ (m : List (String × α)),
      assocFind k' (jsObjSet m k v) = assocFind k' m := by
  have hmap : ∀ (m : List (String × α)),
      assocFind k' (m.map (fun p => if p.1 = k then (k, v) else p))
        = assocFind k' m := by
    intro m
    induction m with
    | nil => rfl
    | cons p m ih =>
      obtain ⟨pk, pv⟩ := p
      by_cases hp : pk = k
      · have hk' : k ≠ k' := fun hkk => h hkk.symm
        have hp' : pk ≠ k' := by rw [hp]; exact hk'
        simp only [List.map_cons]
        rw [if_pos hp]
        simp only [assocFind, if_neg hk', if_neg hp']
        exact ih
      · simp only [List.map_cons]
        rw [if_neg hp]
        simp only [assocFind]
        by_cases hq : pk = k'
        · simp [if_pos hq]
        · simp only [if_neg hq]
          exact ih
  have happ : ∀ (m : List (String × α)),
      assocFind k' (m ++ [(k, v)]) = assocFind k' m := by
    intro m
    induction m with
    | nil =>
      have hk : k ≠ k' := fun hkk => h hkk.symm
      simp [assocFind, if_neg hk]
    | cons p m ih =>
      obtain ⟨pk, pv⟩ := p
      by_cases hq : pk = k'
      · simp [assocFind, if_pos hq]
      · simp only [List.cons_append, assocFind, if_neg hq]
        exact ih
  intro m
  unfold jsObjSet
  by_cases hany : (m.any (fun p => decide (p.1 = k))) = true
  · simp only [hany, if_true]
    exact hmap m
  · simp only [hany, if_false]
    exact happ m

lemma foldl_jsObjSet_not_mem (tr : Translator) (text : Json) :
    ∀ (langs : List String) (m : List (String × Option String)) (lang : String),
      lang ∉ langs →
      assocFind lang
          (langs.foldl (fun m l => jsObjSet m l (tr text l).toOption) m)
        = assocFind lang m := by
  intro langs
  induction langs with
  | nil => intro m lang _; rfl
  | cons l ls ih =>
    intro m lang hmem
    simp only [List.foldl_cons]
    have h1 : lang ∉ ls := fun hm => hmem (List.mem_cons_of_mem _ hm)
    have h2 : lang ≠ l := fun hm => hmem (by rw [hm]; exact List.mem_cons_self _ _)
    rw [ih _ lang h1, assocFind_jsObjSet_ne _ _ _ h2]

lemma resultsPerLang_foldl_lookup (tr : Translator) (text : Json) :
    ∀ (langs : List String) (m : List (String × Option String)) (lang : String),
      lang ∈ langs →
      assocFind lang
          (langs.foldl (fun m l => jsObjSet m l (tr text l).toOption) m)
        = some (tr text lang).toOption := by
  intro langs
  induction langs with
  | nil => intro m lang h; cases h
  | cons l ls ih =>
    intro m lang hmem
    simp only [List.foldl_cons]
    by_cases hls : lang ∈ ls
    · exact ih _ lang hls
    · have hl : lang = l := by
        rcases List.mem_cons.mp hmem with h | h
        · exact h
        · exact absurd h hls
      subst hl
      rw [foldl_jsObjSet_not_mem tr text ls _ lang hls]
      exact assocFind_jsObjSet_self _ _ _

/-- Once a language is in the requested list, its slot in the per-unit
result object is exactly the outcome of the translator on that unit's
text: the translated string, or a recorded `none` after a caught
failure. -/
lemma resultsPerLang_lookup (tr : Translator) (text : Json)
    (langs : List String) (lang : String) (h : lang ∈ langs) :
    assocFind lang (resultsPerLang tr text langs)
      = some (tr text lang).toOption :=
  resultsPerLang_foldl_lookup tr text langs [] lang h

/-! ## Helper lemmas: dictionary add/update -/

lemma sameKey_of_matchesKey {e e' : Entry} {s lg : String}
    (h : matchesKey e s lg = true) (h' : matchesKey e' s lg = true) :
    sameKey e e' = true := by
  simp only [matchesKey, Bool.and_eq_true, beq_iff_eq] at h h'
  simp only [sameKey, Bool.and_eq_true, beq_iff_eq]
  exact ⟨h.1.trans h'.1.symm, h.2.trans h'.2.symm⟩

lemma matchesKey_self (s lg t : String) :
    matchesKey (Entry.mk s lg t) s lg = true := by
  simp [matchesKey]

lemma countKey_eq_zero {l : List Entry} {s lg : String}
    (h : l.any (fun e => matchesKey e s lg) = false) :
    countKey l s lg = 0 := by
  simp only [countKey, List.length_eq_zero, List.filter_eq_nil_iff]
  intro e he
  rw [List.any_eq_false] at h
  simpa using h e he

lemma mem_of_countKey_zero {l : List Entry} {s lg : String}
    (h : countKey l s lg = 0) {e : Entry} (he : e ∈ l) :
    matchesKey e s lg = false := by
  simp only [countKey, List.length_eq_zero, List.filter_eq_nil_iff] at h
  simpa using h e he

/-- Append-on-miss: with no entry matching the key, `addOrUpdate` pushes
a fresh entry at the end and changes nothing else. -/
lemma addOrUpdate_append_of_no_match :
    ∀ (l : List Entry) (s lg t : String),
      l.any (fun e => matchesKey e s lg) = false →
      addOrUpdateDictionaryEntry l s lg t = l ++ [Entry.mk s lg t] := by
  intro l
  induction l with
  | nil => intro s lg t _; rfl
  | cons e rest ih =>
    intro s lg t h
    simp only [List.any_cons, Bool.or_eq_false_iff] at h
    simp only [addOrUpdateDictionaryEntry, h.1, Bool.false_eq_true, if_false,
      List.cons_append, List.cons.injEq, true_and]
    exact ih s lg t h.2

/-- Overwrite-on-match: with some entry matching the key, `addOrUpdate`
keeps the list length (no entry is added or removed). -/
lemma addOrUpdate_length_of_match :
    ∀ (l : List Entry) (s lg t : String),
      l.any (fun e => matchesKey e s lg) = true →
      (addOrUpdateDictionaryEntry l s lg t).length = l.length := by
  intro l
  induction l with
  | nil => intro s lg t h; cases h
  | cons e rest ih =>
    intro s lg t h
    by_cases he : matchesKey e s lg = true
    · simp [addOrUpdateDictionaryEntry, he]
    · have he' : matchesKey e s lg = false := by simpa using he
      simp only [addOrUpdateDictionaryEntry, he', Bool.false_eq_true, if_false,
        List.length_cons]
      have hrest : rest.any (fun e => matchesKey e s lg) = true := by
        simpa [List.any_cons, he'] using h
      rw [ih s lg t hrest]

lemma countKey_addOrUpdate :
    ∀ (l : List Entry) (s lg t : String),
      countKey (addOrUpdateDictionaryEntry l s lg t) s lg
        = if l.any (fun e => matchesKey e s lg) then countKey l s lg
          else countKey l s lg + 1 := by
  intro l
  induction l with
  | nil =>
    intro s lg t
    simp [addOrUpdateDictionaryEntry, countKey, matchesKey_self]
  | cons e rest ih =>
    intro s lg t
    by_cases he : matchesKey e s lg = true
    · have hupd : matchesKey (Entry.mk e.source e.language t) s lg
          = matchesKey e s lg := rfl
      simp [addOrUpdateDictionaryEntry, he, countKey, List.any_cons,
        List.filter_cons, hupd]
    · have he' : matchesKey e s lg = false := by simpa using he
      simp only [addOrUpdateDictionaryEntry, he', Bool.false_eq_true, if_false,
        List.any_cons, Bool.false_or]
      simp only [countKey, List.filter_cons, he', Bool.false_eq_true, if_false]
      exact ih s lg t

lemma any_sameKey_addOrUpdate {e₀ : Entry} :
    ∀ (rest : List Entry) (s lg t : String),
      rest.any (sameKey e₀) = false → matchesKey e₀ s lg = false →
      (addOrUpdateDictionaryEntry rest s lg t).any (sameKey e₀) = false := by
  intro rest
  induction rest with
  | nil =>
    intro s lg t _ hm
    have : sameKey e₀ (Entry.mk s lg t) = matchesKey e₀ s lg := rfl
    simp [addOrUpdateDictionaryEntry, List.any_cons, this, hm]
  | cons f fs ih =>
    intro s lg t hany hm
    simp only [List.any_cons, Bool.or_eq_false_iff] at hany
    by_cases hf : matchesKey f s lg = true
    · have hupd : sameKey e₀ (Entry.mk f.source f.language t)
          = sameKey e₀ f := rfl
      simp [addOrUpdateDictionaryEntry, hf, List.any_cons, hupd, hany.1, hany.2]
    · have hf' : matchesKey f s lg = false := by simpa using hf
      simp only [addOrUpdateDictionaryEntry, hf', Bool.false_eq_true, if_false,
        List.any_cons, Bool.or_eq_false_iff]
      exact ⟨hany.1, ih s lg t hany.2 hm⟩

/-- `addOrUpdate` preserves the at-most-one-entry-per-key invariant. -/
lemma uniqKeys_addOrUpdate :
    ∀ (l : List Entry) (s lg t : String), uniqKeys l = true →
      uniqKeys (addOrUpdateDictionaryEntry l s lg t) = true := by
  intro l
  induction l with
  | nil => intro s lg t _; simp [addOrUpdateDictionaryEntry, uniqKeys]
  | cons e rest ih =>
    intro s lg t hu
    simp only [uniqKeys, Bool.and_eq_true, Bool.not_eq_true'] at hu
    by_cases he : matchesKey e s lg = true
    · simp only [addOrUpdateDictionaryEntry, he, if_true, uniqKeys,
        Bool.and_eq_true, Bool.not_eq_true']
      exact ⟨hu.1, hu.2⟩
    · have he' : matchesKey e s lg = false := by simpa using he
      simp only [addOrUpdateDictionaryEntry, he', Bool.false_eq_true, if_false,
        uniqKeys, Bool.and_eq_true, Bool.not_eq_true']
      exact ⟨any_sameKey_addOrUpdate rest s lg t hu.1 he',
        ih s lg t hu.2⟩

/-- Under the uniqueness invariant there is at most one entry per key. -/
lemma countKey_le_one_of_uniq :
    ∀ (l : List Entry) (s lg : String), uniqKeys l = true →
      countKey l s lg ≤ 1 := by
  intro l
  induction l with
  | nil => intro s lg _; simp [countKey]
  | cons e rest ih =>
    intro s lg hu
    simp only [uniqKeys, Bool.and_eq_true, Bool.not_eq_true'] at hu
    by_cases he : matchesKey e s lg = true
    · have hzero : countKey rest s lg = 0 := by
        by_contra hc
        have hpos : 0 < countKey rest s lg := Nat.pos_of_ne_zero hc
        simp only [countKey, List.length_pos, ne_eq, List.filter_eq_nil_iff,
          not_forall] at hpos
        obtain ⟨e', he', hm⟩ := hpos
        simp only [not_not] at hm
        have hsame : sameKey e e' = true :=
          sameKey_of_matchesKey he (by simpa using hm)
        have : rest.any (sameKey e) = true :=
          List.any_eq_true.mpr ⟨e', he', hsame⟩
        rw [hu.1] at this
        exact Bool.false_ne_true this
      simp only [countKey, List.filter_cons, he, if_true, List.length_cons]
      simp only [countKey] at hzero
      omega
    · have he' : matchesKey e s lg = false := by simpa using he
      simp only [countKey, List.filter_cons, he', Bool.false_eq_true, if_false]
      exact ih s lg hu.2

/-- After `addOrUpdate` on a list with at most one match, every entry
matching the key carries the new translation. -/
lemma translation_after_addOrUpdate :
    ∀ (l : List Entry) (s lg t : String), countKey l s lg ≤ 1 →
      ∀ e ∈ addOrUpdateDictionaryEntry l s lg t,
        matchesKey e s lg = true → e.translation = t := by
  intro l
  induction l with
  | nil =>
    intro s lg t _ e he _
    simp only [addOrUpdateDictionaryEntry, List.mem_singleton] at he
    rw [he]
  | cons f fs ih =>
    intro s lg t hcount e he hm
    by_cases hf : matchesKey f s lg = true
    · simp only [addOrUpdateDictionaryEntry, hf, if_true, List.mem_cons] at he
      rcases he with he | he
      · rw [he]
      · exfalso
        have hfs : countKey fs s lg = 0 := by
          simp only [countKey, List.filter_cons, hf, if_true,
            List.length_cons] at hcount
          simp only [countKey]
          omega
        have := mem_of_countKey_zero hfs he
        rw [this] at hm
        exact Bool.false_ne_true hm
    · have hf' : matchesKey f s lg = false := by simpa using hf
      simp only [addOrUpdateDictionaryEntry, hf', Bool.false_eq_true, if_false,
        List.mem_cons] at he
      rcases he with he | he
      · rw [he] at hm
        rw [hf'] at hm
        exact absurd hm (Bool.false_ne_true)
      · have hcount' : countKey fs s lg ≤ 1 := by
          simp only [countKey, List.filter_cons, hf', Bool.false_eq_true,
            if_false] at hcount ⊢
          exact hcount
        exact ih s lg t hcount' e he hm

lemma one_le_countKey_iff_any (l : List Entry) (s lg : String) :
    1 ≤ countKey l s lg ↔ l.any (fun e => matchesKey e s lg) = true := by
  constructor
  · intro h1
    rw [List.any_eq_true]
    have hne : l.filter (fun e => matchesKey e s lg) ≠ [] := by
      intro hnil
      simp only [countKey, hnil, List.length_nil] at h1
      omega
    obtain ⟨e, he⟩ := List.exists_mem_of_ne_nil _ hne
    have hm := List.mem_filter.mp he
    exact ⟨e, hm.1, hm.2⟩
  · intro h
    obtain ⟨e, hel, hm⟩ := List.any_eq_true.mp h
    have hmem : e ∈ l.filter (fun e => matchesKey e s lg) :=
      List.mem_filter.mpr ⟨hel, hm⟩
    exact List.length_pos.mpr (List.ne_nil_of_mem hmem)

lemma countKey_addOrUpdate_eq_one (l : List Entry) (s lg t : String)
    (hu : uniqKeys l = true) :
    countKey (addOrUpdateDictionaryEntry l s lg t) s lg = 1 := by
  rw [countKey_addOrUpdate]
  by_cases hany : l.any (fun e => matchesKey e s lg) = true
  · rw [if_pos hany]
    have hle := countKey_le_one_of_uniq l s lg hu
    have hge := (one_le_countKey_iff_any l s lg).mpr hany
    omega
  · have hany' : l.any (fun e => matchesKey e s lg) = false := by simpa using hany
    rw [hany', countKey_eq_zero hany']
    simp

/-! ## Helper lemmas: dictionary persistence -/

lemma jsonToEntry_entryToJson (e : Entry) :
    jsonToEntry (entryToJson e) = some e := rfl

lemma decodeEntries_encodeEntries (l : List Entry) :
    decodeEntries (encodeEntries l) = some l := by
  simp only [decodeEntries, encodeEntries]
  induction l with
  | nil => rfl
  | cons e rest ih =>
    simp only [List.map_cons, decodeEntryList, jsonToEntry_entryToJson, ih]

lemma store_get_put_same (store : Store) (key : String) (v : Json) :
    Store.get (Store.put store key v) key = some v := by
  simp [Store.put, Store.get, assocFind]

/-! ## Claim theorems -/

/-- C5: for every in-memory entry list, including the empty list,
`saveCustomDictionaryJson` followed by `loadCustomDictionaryJson` against
the same storage key reproduces the exact entry list, preserving order
and content: the load returns exactly the saved list and sets the
in-memory store to it. -/
theorem save_load_roundtrip (entries preState : List Entry) (jsonKey : String)
    (store : Store) :
    loadCustomDictionaryJson
        (fetchDictionary (saveCustomDictionaryJson entries jsonKey store) jsonKey)
        preState
      = (Except.ok entries, entries) := by
  unfold saveCustomDictionaryJson fetchDictionary
  rw [store_get_put_same]
  simp [loadCustomDictionaryJson, decodeEntries_encodeEntries]

/-- C6: `loadCustomDictionaryJson` invoked when the configured key does
not exist in storage returns an empty dictionary and sets the in-memory
store to empty, rather than raising an error. -/
theorem load_missing_key_empty (store : Store) (jsonKey : String)
    (preState : List Entry) (h : Store.get store jsonKey = none) :
    loadCustomDictionaryJson (fetchDictionary store jsonKey) preState
      = (Except.ok [], []) := by
  unfold fetchDictionary
  rw [h]
  simp [loadCustomDictionaryJson]

/-- Witness for C6 at a concrete input: the empty store misses the key
"dictionary.json" and the load recovers an empty dictionary, discarding
nothing of the result while resetting the in-memory state. -/
theorem load_missing_key_empty_witness :
    loadCustomDictionaryJson (fetchDictionary [] "dictionary.json")
        [Entry.mk "hello" "fr" "bonjour"]
      = (Except.ok [], []) :=
  load_missing_key_empty [] "dictionary.json" [Entry.mk "hello" "fr" "bonjour"] rfl

/-- C7: for every fetch or JSON-parse fault during
`loadCustomDictionaryJson` other than a missing key, the operation raises
an error and the in-memory dictionary store is left exactly at its
pre-call state — not cleared and not partially updated. -/
theorem load_fault_preserves_state (msg : String) (preState : List Entry) :
    loadCustomDictionaryJson (Except.error (LoadErr.fault msg)) preState
      = (Except.error (LoadErr.fault msg), preState) := rfl

/-- C4: for every dictionary state satisfying the uniqueness invariant
and every (source, language) identity key, calling
`addOrUpdateDictionaryEntry` twice on that key with different
translations leaves exactly one entry for that key, holding the
translation from the second call; more generally `addOrUpdate` preserves
the at-most-one-entry-per-key invariant, overwrites on match (same
length) and appends on miss. -/
theorem addOrUpdate_unique_key (l : List Entry) (s lg t₁ t₂ : String)
    (hu : uniqKeys l = true) :
    uniqKeys (addOrUpdateDictionaryEntry l s lg t₁) = true
  ∧ countKey (addOrUpdateDictionaryEntry
      (addOrUpdateDictionaryEntry l s lg t₁) s lg t₂) s lg = 1
  ∧ (∀ e ∈ addOrUpdateDictionaryEntry
        (addOrUpdateDictionaryEntry l s lg t₁) s lg t₂,
      matchesKey e s lg = true → e.translation = t₂)
  ∧ (l.any (fun e => matchesKey e s lg) = false →
      addOrUpdateDictionaryEntry l s lg t₁ = l ++ [Entry.mk s lg t₁])
  ∧ (l.any (fun e => matchesKey e s lg) = true →
      (addOrUpdateDictionaryEntry l s lg t₁).length = l.length) := by
  have hu₁ : uniqKeys (addOrUpdateDictionaryEntry l s lg t₁) = true :=
    uniqKeys_addOrUpdate l s lg t₁ hu
  have hcount₁ : countKey (addOrUpdateDictionaryEntry l s lg t₁) s lg = 1 :=
    countKey_addOrUpdate_eq_one l s lg t₁ hu
  refine ⟨hu₁, ?_, ?_, addOrUpdate_append_of_no_match l s lg t₁,
    addOrUpdate_length_of_match l s lg t₁⟩
  · rw [countKey_addOrUpdate]
    have hany : (addOrUpdateDictionaryEntry l s lg t₁).any
        (fun e => matchesKey e s lg) = true :=
      (one_le_countKey_iff_any _ s lg).mp (by omega)
    rw [if_pos hany, hcount₁]
  · exact translation_after_addOrUpdate (addOrUpdateDictionaryEntry l s lg t₁)
      s lg t₂ (by omega)

/-- Witness for C4 at a concrete input: a singleton dictionary satisfies
the invariant, and the double update on key ("hello", "FR") — matching
the stored ("Hello", "fr") entry case-insensitively — leaves exactly one
entry for the key. -/
theorem addOrUpdate_unique_key_witness :
    uniqKeys [Entry.mk "Hello" "fr" "x"] = true
  ∧ countKey (addOrUpdateDictionaryEntry (addOrUpdateDictionaryEntry
      [Entry.mk "Hello" "fr" "x"] "hello" "FR" "a") "hello" "FR" "b")
      "hello" "FR" = 1 :=
  ⟨by decide, (addOrUpdate_unique_key [Entry.mk "Hello" "fr" "x"]
      "hello" "FR" "a" "b" (by decide)).2.1⟩

/-- C10: in the bulk manual fallback, the uploaded output array contains
the records of the retained units in exactly the order those units occur
in the parsed input, and each record is built from that unit's own
retained text (its original plus its own per-language results) — no
reordering, duplication, or cross-unit mixing. -/
theorem bulk_output_order_integrity (tr : Translator) (langs : List String)
    (items : List Json) :
    manualLoop tr langs items
      = (items.filterMap retainedText).map
          (fun text => mkRecord text (resultsPerLang tr text langs)) :=
  manualLoop_eq_map_filterMap tr langs items

/-- C1: in the bulk manual fallback, a translation failure for one
(unit, language) pair is recorded as a null (`none`) value for that
language, the batch completes with exactly one output record per
retained unit, and on the spec's concrete vector — input `["good
morning"]`, targets `["fr", "de"]`, a translator succeeding with
"bonjour" for fr and throwing for de — the output is the single record
with original "good morning", fr "bonjour" and de null. -/
theorem bulk_partial_failure_tolerance (tr : Translator) (langs : List String)
    (items : List Json) (text : Json) (lang msg : String)
    (hlang : lang ∈ langs) (herr : tr text lang = Except.error msg) :
    (manualLoop tr langs items).length = (items.filterMap retainedText).length
  ∧ assocFind lang (resultsPerLang tr text langs) = some none
  ∧ manualLoop trGoodMorning ["fr", "de"] [Json.str "good morning"]
      = [Json.obj [("original", Json.str "good morning"),
          ("fr", Json.str "bonjour"), ("de", Json.null)]] := by
  refine ⟨?_, ?_, rfl⟩
  · rw [manualLoop_eq_map_filterMap]
    exact List.length_map _ _
  · rw [resultsPerLang_lookup tr text langs lang hlang, herr]
    rfl

/-- Witness for C1 at the spec's concrete vector: "de" is a requested
language, the translator throws on it, and its slot in the result object
is the recorded null. -/
theorem bulk_partial_failure_tolerance_witness :
    "de" ∈ ["fr", "de"]
  ∧ assocFind "de"
      (resultsPerLang trGoodMorning (Json.str "good morning") ["fr", "de"])
      = some none :=
  ⟨by decide, (bulk_partial_failure_tolerance trGoodMorning ["fr", "de"]
      [Json.str "good morning"] (Json.str "good morning") "de"
      "Translation failed" (by decide) rfl).2.1⟩

/-- C2: the bulk manual fallback builds its unit list by
ordered-preference rules — a JSON array supplies its elements, else an
array-valued `translations` field supplies its elements, else the raw
text is split into non-blank lines — and an empty array from the first
two rules falls through to line splitting; in particular the input
object with an empty `translations` array is parsed line-by-line. -/
theorem bulk_parse_rules (raw : String) (p : Json) (xs ys : List Json) :
    parseItems raw none = lineItems raw
  ∧ (parseItems raw (some (Json.arr xs))
      = if xs.isEmpty then lineItems raw else xs)
  ∧ (p.isArr = false → p.field? "translations" = some (Json.arr ys) →
      parseItems raw (some p) = if ys.isEmpty then lineItems raw else ys)
  ∧ (p.isArr = false → (∀ zs, p.field? "translations" ≠ some (Json.arr zs)) →
      parseItems raw (some p) = lineItems raw)
  ∧ parseItems "\x7b \"translations\": [] \x7d"
      (some (Json.obj [("translations", Json.arr [])]))
      = [Json.str "\x7b \"translations\": [] \x7d"] := by
  refine ⟨rfl, rfl, ?_, ?_, rfl⟩
  · intro hnotarr hfield
    cases p with
    | arr zs => simp [Json.isArr] at hnotarr
    | obj fs =>
      simp only [parseItems]
      rw [hfield]
    | null => simp [Json.field?] at hfield
    | bool b => simp [Json.field?] at hfield
    | num n => simp [Json.field?] at hfield
    | str s => simp [Json.field?] at hfield
  · intro hnotarr hnone
    cases p with
    | arr zs => simp [Json.isArr] at hnotarr
    | obj fs =>
      simp only [parseItems]
      cases hf : Json.field? (Json.obj fs) "translations" with
      | none => simp [hf]
      | some v =>
        cases v with
        | arr zs => exact absurd hf (hnone zs)
        | null => simp [hf]
        | bool b => simp [hf]
        | num n => simp [hf]
        | str s => simp [hf]
        | obj gs => simp [hf]
    | null => rfl
    | bool b => rfl
    | num n => rfl
    | str s => rfl

/-- Witness for C2 at concrete inputs: a non-array JSON object with a
non-empty `translations` array yields exactly those elements, and a JSON
number (no `translations` field at all) falls back to line-by-line
parsing of the raw text. -/
theorem bulk_parse_rules_witness :
    parseItems "alpha"
        (some (Json.obj [("translations", Json.arr [Json.str "x"])]))
      = [Json.str "x"]
  ∧ parseItems "alpha" (some (Json.num 5)) = [Json.str "alpha"] := by
  constructor
  · have h := (bulk_parse_rules "alpha"
        (Json.obj [("translations", Json.arr [Json.str "x"])])
        [] [Json.str "x"]).2.2.1 rfl rfl
    simpa using h
  · have h := (bulk_parse_rules "alpha" (Json.num 5) [] []).2.2.2.1 rfl
      (by intro zs hzs; simp [Json.field?] at hzs)
    simpa using h

/-- Counterexample for C9: the loop's extraction uses the first
JavaScript-truthy field, not the first present one — a unit whose `Text`
field holds the empty string is translated from its `text` field — and a
unit that is the empty string is skipped rather than used. -/
theorem extract_first_present_cex :
    extractText (Json.obj [("Text", Json.str ""), ("text", Json.str "abc")])
      = some (Json.str "abc")
  ∧ extractTextClaim
      (Json.obj [("Text", Json.str ""), ("text", Json.str "abc")])
      = some (Json.str "")
  ∧ manualLoop (fun _ _ => Except.ok "x") ["fr"] [Json.str ""] = [] :=
  ⟨rfl, rfl, rfl⟩

/-- C9 amended: in the bulk manual fallback the translatable text is the
unit itself for a non-empty string unit, and otherwise the first
JavaScript-truthy of the `Text`, `text`, `source` fields in that
priority order (an empty-string field is passed over like a missing
one); a unit yielding no truthy text — including the empty string — is
skipped, contributing no output record and raising no error. -/
theorem bulk_text_extraction_amended (tr : Translator) (langs : List String)
    (entry : Json) (rest : List Json) (v : Json) (s : String) :
    (retainedText entry = none →
      manualLoop tr langs (entry :: rest) = manualLoop tr langs rest)
  ∧ (retainedText entry = some v →
      manualLoop tr langs (entry :: rest)
        = mkRecord v (resultsPerLang tr v langs) :: manualLoop tr langs rest)
  ∧ (s ≠ "" → retainedText (Json.str s) = some (Json.str s))
  ∧ extractText (Json.obj [("Text", Json.str "a"), ("text", Json.str "b"),
      ("source", Json.str "c")]) = some (Json.str "a")
  ∧ extractText (Json.obj [("text", Json.str "b"), ("source", Json.str "c")])
      = some (Json.str "b")
  ∧ extractText (Json.obj [("source", Json.str "c")]) = some (Json.str "c")
  ∧ retainedText (Json.obj [("note", Json.str "x")]) = none := by
  refine ⟨?_, ?_, ?_, rfl, rfl, rfl, rfl⟩
  · intro h
    rw [manualLoop_cons]
    simp [manualStep, h]
  · intro h
    rw [manualLoop_cons]
    simp [manualStep, h]
  · intro h
    have hb : (s != "") = true := by simpa using h
    simp [retainedText, extractText, Json.truthy, hb]

/-- Witness for C9 amended at concrete inputs: a unit with no
translatable field is skipped, a non-empty string unit is retained as
itself and contributes its own record. -/
theorem bulk_text_extraction_amended_witness :
    (manualLoop (fun _ _ => Except.ok "x") ["fr"]
        (Json.obj [("note", Json.str "n")] :: [])
      = manualLoop (fun _ _ => Except.ok "x") ["fr"] [])
  ∧ (manualLoop (fun _ _ => Except.ok "x") ["fr"] (Json.str "hi" :: [])
      = mkRecord (Json.str "hi")
          (resultsPerLang (fun _ _ => Except.ok "x") (Json.str "hi") ["fr"])
        :: manualLoop (fun _ _ => Except.ok "x") ["fr"] [])
  ∧ retainedText (Json.str "hi") = some (Json.str "hi") :=
  ⟨(bulk_text_extraction_amended (fun _ _ => Except.ok "x") ["fr"]
      (Json.obj [("note", Json.str "n")]) [] Json.null "hi").1 rfl,
   (bulk_text_extraction_amended (fun _ _ => Except.ok "x") ["fr"]
      (Json.str "hi") [] (Json.str "hi") "hi").2.1 rfl,
   (bulk_text_extraction_amended (fun _ _ => Except.ok "x") ["fr"]
      (Json.str "hi") [] (Json.str "hi") "hi").2.2.1 (by decide)⟩

/-- Counterexample for C3: with the configured terminology name (the
constructor default when none is supplied), the per-item request the
bulk loop sends differs from the request `translateText` sends for the
same text and language — the bulk request carries no terminology
names. -/
theorem bulk_bypasses_terminology_cex :
    bulkTranslateRequest (Json.str "good morning") "fr"
      ≠ translateTextRequest (mkCustomDictionaryName none) "good morning" "fr" := by
  intro h
  have hterm := congrArg TranslateRequest.terminologyNames h
  simp [bulkTranslateRequest, translateTextRequest, mkCustomDictionaryName]
    at hterm

/-- C3 amended: every bulk per-item request fixes source language at
"en", but the bulk loop does not route through the Single-Text
Translator: it never attaches terminology names, so it coincides with
`translateText` only for an empty terminology name — while the
constructor always yields a non-empty configured name, under which the
two requests differ. -/
theorem bulk_request_no_terminology (text lang : String) (cfg : Option String) :
    bulkTranslateRequest (Json.str text) lang
      = translateTextRequest "" text lang
  ∧ mkCustomDictionaryName cfg ≠ ""
  ∧ translateTextRequest (mkCustomDictionaryName cfg) text lang
      ≠ bulkTranslateRequest (Json.str text) lang := by
  have hne : mkCustomDictionaryName cfg ≠ "" := by
    cases cfg with
    | none => simp [mkCustomDictionaryName]
    | some s =>
      simp only [mkCustomDictionaryName]
      by_cases hs : (s != "") = true
      · rw [if_pos hs]
        simpa using hs
      · rw [if_neg hs]
        simp
  refine ⟨?_, hne, ?_⟩
  · simp [bulkTranslateRequest, translateTextRequest]
  · intro h
    have hterm := congrArg TranslateRequest.terminologyNames h
    have hbne : (mkCustomDictionaryName cfg != "") = true := by simpa using hne
    simp only [translateTextRequest, bulkTranslateRequest, hbne, if_true]
      at hterm
    simp at hterm

/-- Counterexample for C8: at the code the claim points to, the CSV row
selection applies no blank filtering — an entry whose source is blank
after trimming still produces a row — and the entry language is
lower-cased but not trimmed before comparison, so an entry with language
" fr" is excluded for target "fr"; the claim's described selection does
the opposite on both inputs. -/
theorem csv_export_blank_rows_cex :
    convertJsonToAwsCsvRows [Entry.mk "  " "fr" "y"] "fr" = [("  ", "y")]
  ∧ convertCsvRowsClaim [Entry.mk "  " "fr" "y"] "fr" = []
  ∧ convertJsonToAwsCsvRows [Entry.mk "x" " fr" "y"] "fr" = []
  ∧ convertCsvRowsClaim [Entry.mk "x" " fr" "y"] "fr" = [("x", "y")] :=
  ⟨rfl, rfl, rfl, rfl⟩

/-- C8 amended: the CSV export selects exactly the entries whose
lower-cased (untrimmed) language equals the lower-cased-and-trimmed
target tag, maps each — with no blank filtering — to the two-column data
row (source, translation) in stable order, and on the spec's concrete
entries exporting for "fr" yields exactly the row hello,bonjour under
the header fields (en, fr), excluding the "de" entry. -/
theorem csv_export_rows_amended (entries : List Entry) (lang : String)
    (e : Entry) :
    (e ∈ entries → jsToLower e.language = jsTrim (jsToLower lang) →
      (e.source, e.translation) ∈ convertJsonToAwsCsvRows entries lang)
  ∧ (∀ row ∈ convertJsonToAwsCsvRows entries lang, ∃ e' ∈ entries,
      jsToLower e'.language = jsTrim (jsToLower lang)
        ∧ row = (e'.source, e'.translation))
  ∧ convertJsonToAwsCsvRows
      [Entry.mk "hello" "fr" "bonjour", Entry.mk "x" "de" "y"] "fr"
      = [("hello", "bonjour")]
  ∧ convertJsonToAwsCsvFields "fr" = ["en", "fr"] := by
  refine ⟨?_, ?_, rfl, rfl⟩
  · intro hmem hlang
    simp only [convertJsonToAwsCsvRows, List.mem_map]
    exact ⟨e, List.mem_filter.mpr ⟨hmem, by simpa using hlang⟩, rfl⟩
  · intro row hrow
    simp only [convertJsonToAwsCsvRows, List.mem_map] at hrow
    obtain ⟨e', he', hmap⟩ := hrow
    have hf := List.mem_filter.mp he'
    exact ⟨e', hf.1, by simpa using hf.2, hmap.symm⟩

/-- Witness for C8 amended at the spec's concrete entries: the matching
"fr" entry contributes its (source, translation) row. -/
theorem csv_export_rows_amended_witness :
    ("hello", "bonjour") ∈ convertJsonToAwsCsvRows
      [Entry.mk "hello" "fr" "bonjour", Entry.mk "x" "de" "y"] "fr" :=
  (csv_export_rows_amended
      [Entry.mk "hello" "fr" "bonjour", Entry.mk "x" "de" "y"] "fr"
      (Entry.mk "hello" "fr" "bonjour")).1 (by decide) (by decide)

end TranslationManager
